import Mathlib

/-!
Shallow embedding of the benchmark harness `exp_mpi.py` (experiment runner,
output parser, trial aggregator, sweep controller, derived-metrics pass).

External process invocations are modelled by the `TrialRun` type, which
records what one `subprocess.run` call of a cell's trial did: raised a
timeout, raised some other exception, or completed with an exit code and a
captured stdout text (a list of characters).  Floating-point numbers are
modelled as rationals.
-/

/-- Python `\s` on ASCII text: space, tab, newline, carriage return,
vertical tab, form feed. -/
def isSpaceCh (c : Char) : Bool :=
  c = ' ' || c = '\t' || c = '\n' || c = '\r' || c = '\x0b' || c = '\x0c'

/-- Python `\d` on ASCII text: a decimal digit. -/
def isDigitCh (c : Char) : Bool :=
  '0' ≤ c && c ≤ '9'

/-- Character class `[\d.]` of the time pattern: a digit or a dot. -/
def isTimeCh (c : Char) : Bool :=
  isDigitCh c || c = '.'

/-- Consume an exact literal at the front of the input; return the rest, or
`none` when the literal is not there. -/
def dropLit : List Char → List Char → Option (List Char)
  | [], rest => some rest
  | _ :: _, [] => none
  | l :: ls, r :: rs => if l = r then dropLit ls rs else none

/-- The literal part of the regex `Matches:\s*(\d+)`. -/
def matchesLit : List Char :=
  ['M', 'a', 't', 'c', 'h', 'e', 's', ':']

/-- The literal part of the regex `Time\(s\):\s*([\d.]+)`. -/
def timeLit : List Char :=
  ['T', 'i', 'm', 'e', '(', 's', ')', ':']

/-- Try the pattern `Matches:\s*(\d+)` anchored at the front of `cs`;
return the captured digit group.  `\s*` and `\d+` are over disjoint
character classes, so maximal munch realises the regex semantics. -/
def matchMatchesAt (cs : List Char) : Option (List Char) :=
  match dropLit matchesLit cs with
  | none => none
  | some rest =>
    let digits := (rest.dropWhile isSpaceCh).takeWhile isDigitCh
    if digits.isEmpty then none else some digits

/-- Try the pattern `Time\(s\):\s*([\d.]+)` anchored at the front of `cs`;
return the captured `[\d.]+` group. -/
def matchTimeAt (cs : List Char) : Option (List Char) :=
  match dropLit timeLit cs with
  | none => none
  | some rest =>
    let digits := (rest.dropWhile isSpaceCh).takeWhile isTimeCh
    if digits.isEmpty then none else some digits

/-- `re.search` for `Matches:\s*(\d+)`: leftmost match wins. -/
def searchMatches : List Char → Option (List Char)
  | [] => none
  | c :: cs =>
    match matchMatchesAt (c :: cs) with
    | some d => some d
    | none => searchMatches cs

/-- `re.search` for `Time\(s\):\s*([\d.]+)`: leftmost match wins. -/
def searchTime : List Char → Option (List Char)
  | [] => none
  | c :: cs =>
    match matchTimeAt (c :: cs) with
    | some d => some d
    | none => searchTime cs

/-- Python `int` on a digit string. -/
def natOfDigits (ds : List Char) : Nat :=
  ds.foldl (fun n c => 10 * n + (c.toNat - Char.toNat '0')) 0

/-- Whether Python `float` accepts a string drawn from `[\d.]+`: at most
one dot and at least one digit (otherwise `float` raises `ValueError`). -/
def floatOk (s : List Char) : Bool :=
  s.count '.' ≤ 1 && s.any isDigitCh

/-- The value Python `float` denotes on an accepted `[\d.]+` string,
idealised as a rational: integer part plus fractional part. -/
def ratOfFloatStr (s : List Char) : ℚ :=
  let ip := s.takeWhile isDigitCh
  match s.dropWhile isDigitCh with
  | [] => (natOfDigits ip : ℚ)
  | _ :: fp => (natOfDigits ip : ℚ) + (natOfDigits fp : ℚ) / (10 ^ fp.length : ℚ)

/-- One fully parsed trial: the two fields scraped from stdout
(`results.append({'matches': ..., 'time': ...})`). -/
structure TrialData where
  matchCount : Nat
  time : ℚ
deriving DecidableEq, Repr

/-- What the parsing section of `run_experiment` does with one captured
stdout. -/
inductive ParseOutcome where
  /-- `float(t.group(1))` raised `ValueError`: caught by the generic
  `except Exception` handler, so the whole cell is abandoned. -/
  | valueError
  /-- At least one of the two fields is absent: nothing is appended and the
  loop moves on to the next trial. -/
  | missing
  /-- Both fields parsed. -/
  | fields (matchCount : Nat) (time : ℚ)
deriving DecidableEq, Repr

/-- Lines 48-68 of `exp_mpi.py`: search both patterns, convert the numeric
groups.  `int` on `\d+` cannot fail; `float` on the `[\d.]+` group raises
when the numeral is malformed, and that happens whether or not the match
count was found. -/
def parseOutput (out : List Char) : ParseOutcome :=
  let m := searchMatches out
  match searchTime out with
  | some s =>
    if floatOk s then
      match m with
      | some d => .fields (natOfDigits d) (ratOfFloatStr s)
      | none => .missing
    else .valueError
  | none => .missing

/-- The observable behaviour of one `subprocess.run` invocation. -/
inductive TrialRun where
  /-- `subprocess.TimeoutExpired` was raised. -/
  | timeout
  /-- Some other exception was raised by the launch itself. -/
  | exn
  /-- The child ran to completion with this exit code and stdout. -/
  | completed (returncode : Int) (stdout : List Char)
deriving DecidableEq, Repr

/-- The trial loop of `run_experiment` (lines 27-75): each iteration either
aborts the whole cell (`return None`) on timeout, exception, non-zero exit,
or a malformed time numeral, appends a parsed `TrialData` when both fields
are present, or silently skips the trial when a field is missing. -/
def collectTrials : List TrialRun → Option (List TrialData)
  | [] => some []
  | t :: rest =>
    match t with
    | .timeout => none
    | .exn => none
    | .completed rc out =>
      if rc ≠ 0 then none
      else
        match parseOutput out with
        | .valueError => none
        | .missing => collectTrials rest
        | .fields mt tm => (collectTrials rest).map (fun l => ⟨mt, tm⟩ :: l)

/-- The aggregated record `run_experiment` returns for one successful cell. -/
structure CellResult where
  algorithm : String
  ranks : Nat
  matchCount : Nat
  time : ℚ
  min_time : ℚ
  max_time : ℚ
deriving DecidableEq, Repr

/-- `run_experiment` (lines 23-91): run the trial loop; if no trial
produced data, return `None`; otherwise report the first trial's match
count and the mean, min and max of the collected times. -/
def run_experiment (name : String) (ranks : Nat) (trials : List TrialRun) :
    Option CellResult :=
  match collectTrials trials with
  | none => none
  | some [] => none
  | some (r :: rs) =>
    some { algorithm := name
           ranks := ranks
           matchCount := r.matchCount
           time := ((r :: rs).map TrialData.time).sum / ((r :: rs).length : ℚ)
           min_time := rs.foldl (fun a b => min a b.time) r.time
           max_time := rs.foldl (fun a b => max a b.time) r.time }

/-- The sweep body for one algorithm (lines 105-125): if the executable is
absent the algorithm is skipped for every rank count; otherwise each rank
configuration is run and successful cells are kept.  The stub `runner`
supplies the behaviour of the three `subprocess.run` calls of each cell. -/
def sweepAlgo (name : String) (exeExists : Bool) (rcs : List Nat)
    (runner : String → Nat → List TrialRun) : List CellResult :=
  if exeExists then
    rcs.filterMap (fun r => run_experiment name r (runner name r))
  else []

/-- The full sweep loop of `main` (lines 103-125): algorithms in registry
order, accumulating `all_results`. -/
def sweep (algos : List (String × Bool)) (rcs : List Nat)
    (runner : String → Nat → List TrialRun) : List CellResult :=
  match algos with
  | [] => []
  | (n, ex) :: rest => sweepAlgo n ex rcs runner ++ sweep rest rcs runner

/-- One row of the speedup analysis (lines 157-160). -/
structure DerivedMetric where
  algorithm : String
  ranks : Nat
  speedup : ℚ
  efficiency : ℚ
deriving DecidableEq, Repr

/-- The metrics printed for one algorithm group (lines 150-160): filter the
table to the algorithm, take the first row at 1 rank as baseline; if there
is none, nothing is printed for the group; otherwise every row of the group
yields `speedup = base_time / time` and
`efficiency = speedup / ranks * 100`. -/
def derivedForAlgo (cells : List CellResult) (algo : String) :
    List DerivedMetric :=
  let group := cells.filter (fun c => c.algorithm == algo)
  match group.find? (fun c => c.ranks == 1) with
  | none => []
  | some base =>
    group.map (fun c =>
      { algorithm := c.algorithm
        ranks := c.ranks
        speedup := base.time / c.time
        efficiency := base.time / c.time / (c.ranks : ℚ) * 100 })

/-- `df['algorithm'].unique()`: algorithm names in order of first
appearance. -/
def uniqueAlgos (cells : List CellResult) : List String :=
  cells.foldl (fun acc c => if c.algorithm ∈ acc then acc else acc ++ [c.algorithm]) []

/-- The whole speedup-analysis pass of `main` (lines 150-160). -/
def derivedMetrics (cells : List CellResult) : List DerivedMetric :=
  (uniqueAlgos cells).flatMap (derivedForAlgo cells)

/-- The terminal state of `main` after the sweep. -/
inductive Report where
  /-- `print("\nNo results collected!"); return` (lines 127-129). -/
  | noResults
  /-- The summary table and the derived metrics are produced. -/
  | tables (results : List CellResult) (metrics : List DerivedMetric)
deriving DecidableEq

/-- The post-sweep phase of `main`: empty results short-circuit to the
"no results collected" state; otherwise the table and metrics are built. -/
def mainReport (algos : List (String × Bool)) (rcs : List Nat)
    (runner : String → Nat → List TrialRun) : Report :=
  let rs := sweep algos rcs runner
  if rs.isEmpty then .noResults else .tables rs (derivedMetrics rs)

/-! ### Trial-level classification

`hardFail` names the conditions under which one iteration of the trial loop
executes `return None` (abandoning the whole cell); `trialOutcome` is the
data a non-aborting iteration appends, if any. -/

/-- A trial behaviour that makes `run_experiment` return `None` at once:
timeout, launch exception, non-zero exit, or a `ValueError` from `float`
on a malformed time numeral. -/
def hardFail : TrialRun → Bool
  | .timeout => true
  | .exn => true
  | .completed rc out =>
    rc != 0 ||
      (match parseOutput out with
       | .valueError => true
       | _ => false)

/-- The `TrialData` one non-aborting iteration appends to `results`
(`none` when a field is missing and the trial is skipped). -/
def trialOutcome : TrialRun → Option TrialData
  | .timeout => none
  | .exn => none
  | .completed rc out =>
    if rc = 0 then
      match parseOutput out with
      | .fields mt tm => some ⟨mt, tm⟩
      | _ => none
    else none

/-! ### Concrete demonstration data

Small closed inputs used to instantiate the theorems below: a stdout with
both fields (`Matches: 42`, `Time(s): 1.25`), one with neither field, and
one whose time numeral `1.2.5` is malformed. -/

/-- The characters of `Matches: 42\nTime(s): 1.25\n`. -/
def goodOut : List Char :=
  ['M', 'a', 't', 'c', 'h', 'e', 's', ':', ' ', '4', '2', '\n',
   'T', 'i', 'm', 'e', '(', 's', ')', ':', ' ', '1', '.', '2', '5', '\n']

/-- A stdout with neither field. -/
def noFieldOut : List Char :=
  ['h', 'i', '\n']

/-- The characters of `Matches: 42\nTime(s): 1.2.5\n`: the time group
`1.2.5` is matched by `[\d.]+` but rejected by `float`. -/
def malformedOut : List Char :=
  ['M', 'a', 't', 'c', 'h', 'e', 's', ':', ' ', '4', '2', '\n',
   'T', 'i', 'm', 'e', '(', 's', ')', ':', ' ', '1', '.', '2', '.', '5', '\n']

/-- The algorithm name `BF`. -/
def nameBF : String :=
  String.mk ['B', 'F']

/-- The algorithm name `RK`. -/
def nameRK : String :=
  String.mk ['R', 'K']

/-- A trial that exits 0 and prints both fields. -/
def goodTrial : TrialRun :=
  TrialRun.completed 0 goodOut

/-- Three identical successful trials. -/
def demoTrials : List TrialRun :=
  [goodTrial, goodTrial, goodTrial]

/-- The parsed data of `goodOut`. -/
def tdGood : TrialData :=
  ⟨42, 5 / 4⟩

/-- The cell `demoTrials` aggregates to at 1 rank. -/
def cellBF1 : CellResult :=
  ⟨nameBF, 1, 42, 5 / 4, 5 / 4, 5 / 4⟩

/-- A second cell of the same algorithm at 2 ranks. -/
def cellBF2 : CellResult :=
  ⟨nameBF, 2, 42, 1, 4 / 5, 6 / 5⟩

/-- A two-cell sweep result for algorithm `BF`. -/
def demoCells : List CellResult :=
  [cellBF1, cellBF2]

/-- A stub runner whose every trial times out. -/
def runnerA : String → Nat → List TrialRun :=
  fun _ _ => [TrialRun.timeout]

/-- A stub runner that differs from `runnerA` only on algorithm `BF`. -/
def runnerB : String → Nat → List TrialRun :=
  fun n r => if n = nameBF then [] else runnerA n r

theorem collectTrials_char (trials : List TrialRun) :
    collectTrials trials =
      if trials.any hardFail then none
      else some (trials.filterMap trialOutcome) := by
  induction trials with
  | nil => simp [collectTrials]
  | cons t rest ih =>
    cases t with
    | timeout => simp [collectTrials, hardFail]
    | exn => simp [collectTrials, hardFail]
    | completed rc out =>
      by_cases hrc : rc = 0
      · subst hrc
        cases hp : parseOutput out with
        | valueError =>
          simp [collectTrials, hardFail, hp]
        | missing =>
          simp [collectTrials, hardFail, hp, ih, trialOutcome]
        | fields mt tm =>
          simp only [collectTrials, hardFail, hp, ih, trialOutcome,
            List.any_cons, List.filterMap_cons]
          by_cases hr : rest.any hardFail = true
          · simp [hr]
          · simp [hr]
      · simp only [collectTrials, hardFail, List.any_cons, if_neg hrc]
        simp [hrc]

/-! ### Fold lemmas for the min/max reductions -/

theorem foldl_min_le_init (l : List TrialData) (a : ℚ) :
    l.foldl (fun x b => min x b.time) a ≤ a := by
  induction l generalizing a with
  | nil => exact le_refl a
  | cons c cs ih =>
    exact le_trans (ih (min a c.time)) (min_le_left _ _)

theorem foldl_min_le_mem (l : List TrialData) (a : ℚ) (b : TrialData)
    (hb : b ∈ l) : l.foldl (fun x b => min x b.time) a ≤ b.time := by
  induction l generalizing a with
  | nil => cases hb
  | cons c cs ih =>
    rcases List.mem_cons.mp hb with h | h
    · subst h
      exact le_trans (foldl_min_le_init cs _) (min_le_right _ _)
    · exact ih _ h

theorem foldl_min_eq_or_mem (l : List TrialData) (a : ℚ) :
    l.foldl (fun x b => min x b.time) a = a ∨
      l.foldl (fun x b => min x b.time) a ∈ l.map TrialData.time := by
  induction l generalizing a with
  | nil => exact Or.inl rfl
  | cons c cs ih =>
    rcases ih (min a c.time) with h | h
    · rcases min_cases a c.time with ⟨he, _⟩ | ⟨he, _⟩
      · refine Or.inl ?_
        simp only [List.foldl_cons]
        rw [h]
        exact he
      · refine Or.inr ?_
        simp only [List.foldl_cons]
        rw [h, he]
        simp
    · refine Or.inr ?_
      simp only [List.foldl_cons, List.map_cons, List.mem_cons]
      exact Or.inr h

theorem foldl_max_init_le (l : List TrialData) (a : ℚ) :
    a ≤ l.foldl (fun x b => max x b.time) a := by
  induction l generalizing a with
  | nil => exact le_refl a
  | cons c cs ih =>
    exact le_trans (le_max_left _ _) (ih (max a c.time))

theorem foldl_max_mem_le (l : List TrialData) (a : ℚ) (b : TrialData)
    (hb : b ∈ l) : b.time ≤ l.foldl (fun x b => max x b.time) a := by
  induction l generalizing a with
  | nil => cases hb
  | cons c cs ih =>
    rcases List.mem_cons.mp hb with h | h
    · subst h
      exact le_trans (le_max_right _ _) (foldl_max_init_le cs _)
    · exact ih _ h

theorem foldl_max_eq_or_mem (l : List TrialData) (a : ℚ) :
    l.foldl (fun x b => max x b.time) a = a ∨
      l.foldl (fun x b => max x b.time) a ∈ l.map TrialData.time := by
  induction l generalizing a with
  | nil => exact Or.inl rfl
  | cons c cs ih =>
    rcases ih (max a c.time) with h | h
    · rcases max_cases a c.time with ⟨he, _⟩ | ⟨he, _⟩
      · refine Or.inl ?_
        simp only [List.foldl_cons]
        rw [h]
        exact he
      · refine Or.inr ?_
        simp only [List.foldl_cons]
        rw [h, he]
        simp
    · refine Or.inr ?_
      simp only [List.foldl_cons, List.map_cons, List.mem_cons]
      exact Or.inr h

/-! ### Mean bounds -/

theorem le_sum_div_length (l : List ℚ) (hl : l ≠ []) (m : ℚ)
    (h : ∀ x ∈ l, m ≤ x) : m ≤ l.sum / (l.length : ℚ) := by
  have hlen : 0 < (l.length : ℚ) := by
    have : 0 < l.length := List.length_pos.mpr hl
    exact_mod_cast this
  rw [le_div_iff₀ hlen]
  have := List.card_nsmul_le_sum l m h
  rwa [nsmul_eq_mul, mul_comm] at this

theorem sum_div_length_le (l : List ℚ) (hl : l ≠ []) (m : ℚ)
    (h : ∀ x ∈ l, x ≤ m) : l.sum / (l.length : ℚ) ≤ m := by
  have hlen : 0 < (l.length : ℚ) := by
    have : 0 < l.length := List.length_pos.mpr hl
    exact_mod_cast this
  rw [div_le_iff₀ hlen]
  have := List.sum_le_card_nsmul l m h
  rwa [nsmul_eq_mul, mul_comm] at this

/-! ### Aggregate characterisation of `run_experiment` -/

theorem hardFail_of_outcome (t : TrialRun) (d : TrialData)
    (h : trialOutcome t = some d) : hardFail t = false := by
  cases t with
  | timeout => simp [trialOutcome] at h
  | exn => simp [trialOutcome] at h
  | completed rc out =>
    by_cases hrc : rc = 0
    · subst hrc
      cases hp : parseOutput out with
      | valueError => simp [trialOutcome, hp] at h
      | missing => simp [trialOutcome, hp] at h
      | fields mt tm => simp [hardFail, hp]
    · simp [trialOutcome, hrc] at h

theorem filterMap_of_map_eq_map_some {α β : Type} (f : α → Option β) :
    ∀ (l : List α) (l' : List β), l.map f = l'.map some → l.filterMap f = l'
  | [], [], _ => rfl
  | [], b :: bs, h => by simp at h
  | a :: as, [], h => by simp at h
  | a :: as, b :: bs, h => by
    simp only [List.map_cons, List.cons.injEq] at h
    simp only [List.filterMap_cons, h.1, filterMap_of_map_eq_map_some f as bs h.2]

theorem run_experiment_props (name : String) (ranks : Nat)
    (trials : List TrialRun) (td : TrialData) (tds : List TrialData)
    (hc : collectTrials trials = some (td :: tds)) :
    ∃ cr, run_experiment name ranks trials = some cr ∧
      cr.algorithm = name ∧ cr.ranks = ranks ∧
      cr.matchCount = td.matchCount ∧
      cr.time * (((td :: tds).length : ℚ)) = ((td :: tds).map TrialData.time).sum ∧
      cr.min_time ∈ (td :: tds).map TrialData.time ∧
      (∀ x ∈ (td :: tds).map TrialData.time, cr.min_time ≤ x) ∧
      cr.max_time ∈ (td :: tds).map TrialData.time ∧
      (∀ x ∈ (td :: tds).map TrialData.time, x ≤ cr.max_time) := by
  refine ⟨_, by unfold run_experiment; rw [hc], rfl, rfl, rfl, ?_, ?_, ?_, ?_, ?_⟩
  · have hlen : (((td :: tds).length : ℚ)) ≠ 0 := by
      simp only [List.length_cons]
      positivity
    exact div_mul_cancel₀ _ hlen
  · rcases foldl_min_eq_or_mem tds td.time with h | h
    · rw [h]
      simp
    · simp only [List.map_cons, List.mem_cons]
      exact Or.inr h
  · intro x hx
    simp only [List.map_cons, List.mem_cons] at hx
    rcases hx with hx | hx
    · rw [hx]
      exact foldl_min_le_init tds td.time
    · rcases List.mem_map.mp hx with ⟨b, hb, hbx⟩
      rw [← hbx]
      exact foldl_min_le_mem tds td.time b hb
  · rcases foldl_max_eq_or_mem tds td.time with h | h
    · rw [h]
      simp
    · simp only [List.map_cons, List.mem_cons]
      exact Or.inr h
  · intro x hx
    simp only [List.map_cons, List.mem_cons] at hx
    rcases hx with hx | hx
    · rw [hx]
      exact foldl_max_init_le tds td.time
    · rcases List.mem_map.mp hx with ⟨b, hb, hbx⟩
      rw [← hbx]
      exact foldl_max_mem_le tds td.time b hb

/-! ### Membership helpers for the derived-metrics pass -/

theorem mem_uniqueAlgos_aux (cells : List CellResult) :
    ∀ (acc : List String) (a : String),
      (a ∈ acc ∨ ∃ c ∈ cells, c.algorithm = a) →
      a ∈ cells.foldl
        (fun acc c => if c.algorithm ∈ acc then acc else acc ++ [c.algorithm]) acc := by
  induction cells with
  | nil =>
    intro acc a h
    rcases h with h | ⟨c, hc, _⟩
    · exact h
    · cases hc
  | cons c cs ih =>
    intro acc a h
    simp only [List.foldl_cons]
    apply ih
    rcases h with h | ⟨d, hd, hda⟩
    · left
      split
      · exact h
      · exact List.mem_append_left _ h
    · rcases List.mem_cons.mp hd with hdc | hdc
      · subst hdc
        subst hda
        left
        split
        · assumption
        · exact List.mem_append_right _ (List.mem_singleton.mpr rfl)
      · exact Or.inr ⟨d, hdc, hda⟩

theorem mem_uniqueAlgos (cells : List CellResult) (c : CellResult)
    (hc : c ∈ cells) : c.algorithm ∈ uniqueAlgos cells :=
  mem_uniqueAlgos_aux cells [] c.algorithm (Or.inr ⟨c, hc, rfl⟩)

/-! ### Sweep helpers -/

theorem sweep_append (l1 l2 : List (String × Bool)) (rcs : List Nat)
    (runner : String → Nat → List TrialRun) :
    sweep (l1 ++ l2) rcs runner = sweep l1 rcs runner ++ sweep l2 rcs runner := by
  induction l1 with
  | nil => simp [sweep]
  | cons p l1 ih =>
    cases p with
    | mk n ex => simp [sweep, ih]

theorem run_experiment_algorithm (name : String) (ranks : Nat)
    (trials : List TrialRun) (cr : CellResult)
    (h : run_experiment name ranks trials = some cr) : cr.algorithm = name := by
  unfold run_experiment at h
  cases hc : collectTrials trials with
  | none => rw [hc] at h; cases h
  | some l =>
    cases l with
    | nil => rw [hc] at h; cases h
    | cons r rs =>
      rw [hc] at h
      cases h
      rfl

theorem mem_sweep (algos : List (String × Bool)) (rcs : List Nat)
    (runner : String → Nat → List TrialRun) (cr : CellResult)
    (h : cr ∈ sweep algos rcs runner) :
    ∃ p ∈ algos, p.2 = true ∧ cr.algorithm = p.1 := by
  induction algos with
  | nil => cases h
  | cons p rest ih =>
    cases p with
    | mk n ex =>
      simp only [sweep] at h
      rcases List.mem_append.mp h with h | h
      · cases ex with
        | true =>
          simp only [sweepAlgo, if_pos rfl] at h
          rcases List.mem_filterMap.mp h with ⟨r, _, hr⟩
          exact ⟨(n, true), List.mem_cons_self _ _,
            rfl, run_experiment_algorithm n r (runner n r) cr hr⟩
        | false =>
          simp [sweepAlgo] at h
      · rcases ih h with ⟨q, hq, hq2, hq3⟩
        exact ⟨q, List.mem_cons_of_mem _ hq, hq2, hq3⟩

theorem sweep_congr (l : List (String × Bool)) (rcs : List Nat)
    (runner runner2 : String → Nat → List TrialRun)
    (h : ∀ p ∈ l, p.2 = true → ∀ r, runner2 p.1 r = runner p.1 r) :
    sweep l rcs runner2 = sweep l rcs runner := by
  induction l with
  | nil => rfl
  | cons p rest ih =>
    cases p with
    | mk n ex =>
      simp only [sweep]
      have hrest := ih (fun q hq => h q (List.mem_cons_of_mem _ hq))
      rw [hrest]
      cases ex with
      | true =>
        have hn := h (n, true) (List.mem_cons_self _ _) rfl
        simp only [sweepAlgo, if_pos rfl]
        have : ∀ r, run_experiment n r (runner2 n r) = run_experiment n r (runner n r) := by
          intro r
          rw [hn r]
        simp [this]
      | false => rfl

theorem nodup_key_unique (l : List (String × Bool))
    (hnodup : (l.map Prod.fst).Nodup) (a : String) (b1 b2 : Bool)
    (h1 : (a, b1) ∈ l) (h2 : (a, b2) ∈ l) : b1 = b2 := by
  induction l with
  | nil => cases h1
  | cons p rest ih =>
    simp only [List.map_cons, List.nodup_cons] at hnodup
    rcases List.mem_cons.mp h1 with he1 | he1 <;>
      rcases List.mem_cons.mp h2 with he2 | he2
    · exact congrArg Prod.snd (he1.trans he2.symm)
    · exfalso
      apply hnodup.1
      have ha : a ∈ List.map Prod.fst rest := List.mem_map_of_mem Prod.fst he2
      rw [← he1]
      exact ha
    · exfalso
      apply hnodup.1
      have ha : a ∈ List.map Prod.fst rest := List.mem_map_of_mem Prod.fst he1
      rw [← he2]
      exact ha
    · exact ih hnodup.2 he1 he2

/-! ### Shared concrete evaluations -/

theorem demo_run_eq :
    run_experiment nameBF 1 demoTrials = some cellBF1 := by
  simp [run_experiment, collectTrials, parseOutput, searchTime, searchMatches,
    goodOut, matchTimeAt, matchMatchesAt, dropLit, timeLit, matchesLit,
    isSpaceCh, isDigitCh, isTimeCh, floatOk, ratOfFloatStr, natOfDigits,
    demoTrials, goodTrial, cellBF1]
  norm_num

/-! ### The claims -/

/-- C1 counterexample: a cell whose first trial fails (its stdout has
neither field, so no `TrialOutcome` is produced for it) but whose remaining
trials succeed still yields a `CellResult`, so the cell is not absent from
the sweep result as the claim requires. -/
theorem C1_counterexample :
    trialOutcome (TrialRun.completed 0 noFieldOut) = none ∧
    (run_experiment nameBF 1
      [TrialRun.completed 0 noFieldOut, goodTrial, goodTrial]).isSome = true := by
  constructor
  · rfl
  · rfl

/-- C1 (amended): a first-trial failure by timeout, launch exception,
non-zero exit, or malformed time numeral — and likewise any such failure on
a later trial — abandons the whole cell; but a parse failure from a missing
field only drops that trial, and a `CellResult` is produced exactly when no
trial fails in the former, hard, way and at least one trial's stdout parses
both fields. -/
theorem C1_fail_fast_amended (name : String) (ranks : Nat)
    (trials : List TrialRun) :
    (run_experiment name ranks trials).isSome = true ↔
      ((∀ t ∈ trials, hardFail t = false) ∧
        ∃ t ∈ trials, (trialOutcome t).isSome = true) := by
  unfold run_experiment
  rw [collectTrials_char]
  by_cases hf : trials.any hardFail = true
  · rcases List.any_eq_true.mp hf with ⟨t, ht, hft⟩
    rw [if_pos hf]
    constructor
    · intro h
      simp at h
    · rintro ⟨hall, -⟩
      rw [hall t ht] at hft
      cases hft
  · have hf' : ∀ t ∈ trials, hardFail t = false := by
      intro t ht
      by_contra hc
      exact hf (List.any_eq_true.mpr ⟨t, ht, by
        revert hc
        cases hardFail t <;> simp⟩)
    rw [if_neg hf]
    cases hl : trials.filterMap trialOutcome with
    | nil =>
      constructor
      · intro h
        simp at h
      · rintro ⟨-, t, ht, hsome⟩
        rcases Option.isSome_iff_exists.mp hsome with ⟨d, hd⟩
        have hmem : d ∈ trials.filterMap trialOutcome :=
          List.mem_filterMap.mpr ⟨t, ht, hd⟩
        rw [hl] at hmem
        cases hmem
    | cons a l =>
      constructor
      · intro _
        refine ⟨hf', ?_⟩
        have hmem : a ∈ trials.filterMap trialOutcome := by
          rw [hl]
          exact List.mem_cons_self _ _
        rcases List.mem_filterMap.mp hmem with ⟨t, ht, htd⟩
        exact ⟨t, ht, by rw [htd]; rfl⟩
      · intro _
        rfl

/-- C2: when every configured trial of a cell succeeds, the returned
`CellResult` carries the arithmetic mean of the trials' elapsed times, their
minimum and maximum, and the match count of the first trial, regardless of
the later trials' match counts. -/
theorem C2_full_success_aggregation (name : String) (ranks : Nat)
    (trials : List TrialRun) (td : TrialData) (tds : List TrialData)
    (h : trials.map trialOutcome = (td :: tds).map some) :
    ∃ cr, run_experiment name ranks trials = some cr ∧
      cr.algorithm = name ∧ cr.ranks = ranks ∧
      cr.matchCount = td.matchCount ∧
      cr.time * (((td :: tds).length : ℚ)) = ((td :: tds).map TrialData.time).sum ∧
      cr.min_time ∈ (td :: tds).map TrialData.time ∧
      (∀ x ∈ (td :: tds).map TrialData.time, cr.min_time ≤ x) ∧
      cr.max_time ∈ (td :: tds).map TrialData.time ∧
      (∀ x ∈ (td :: tds).map TrialData.time, x ≤ cr.max_time) := by
  have hfm : trials.filterMap trialOutcome = td :: tds :=
    filterMap_of_map_eq_map_some trialOutcome trials (td :: tds) h
  have hnf : ∀ t ∈ trials, hardFail t = false := by
    intro t ht
    have : trialOutcome t ∈ trials.map trialOutcome := List.mem_map_of_mem _ ht
    rw [h] at this
    rcases List.mem_map.mp this with ⟨d, _, hd⟩
    exact hardFail_of_outcome t d hd.symm
  have hc : collectTrials trials = some (td :: tds) := by
    rw [collectTrials_char, if_neg, hfm]
    intro hany
    rcases List.any_eq_true.mp hany with ⟨t, ht, hft⟩
    rw [hnf t ht] at hft
    cases hft
  exact run_experiment_props name ranks trials td tds hc

theorem C2_witness :
    (demoTrials.map trialOutcome = (tdGood :: [tdGood, tdGood]).map some) ∧
    (∃ cr, run_experiment nameBF 1 demoTrials = some cr ∧
      cr.algorithm = nameBF ∧ cr.ranks = 1 ∧
      cr.matchCount = tdGood.matchCount ∧
      cr.time * (((tdGood :: [tdGood, tdGood]).length : ℚ)) =
        ((tdGood :: [tdGood, tdGood]).map TrialData.time).sum ∧
      cr.min_time ∈ (tdGood :: [tdGood, tdGood]).map TrialData.time ∧
      (∀ x ∈ (tdGood :: [tdGood, tdGood]).map TrialData.time, cr.min_time ≤ x) ∧
      cr.max_time ∈ (tdGood :: [tdGood, tdGood]).map TrialData.time ∧
      (∀ x ∈ (tdGood :: [tdGood, tdGood]).map TrialData.time, x ≤ cr.max_time)) := by
  have h : demoTrials.map trialOutcome = (tdGood :: [tdGood, tdGood]).map some := by
    simp [demoTrials, goodTrial, trialOutcome, parseOutput, searchTime, searchMatches,
      goodOut, matchTimeAt, matchMatchesAt, dropLit, timeLit, matchesLit,
      isSpaceCh, isDigitCh, isTimeCh, floatOk, ratOfFloatStr, natOfDigits, tdGood]
    norm_num
  exact ⟨h, C2_full_success_aggregation nameBF 1 demoTrials tdGood [tdGood, tdGood] h⟩

/-- C10: if no trial of a cell times out, raises, or exits non-zero, and at
least one trial's stdout parses both fields, a `CellResult` is produced
whose mean, min and max are computed over exactly the parsed trials — the
trials whose stdout misses a field are dropped without failing the cell. -/
theorem C10_partial_trial_tolerance (name : String) (ranks : Nat)
    (trials : List TrialRun) (td : TrialData) (tds : List TrialData)
    (hnf : ∀ t ∈ trials, hardFail t = false)
    (hp : trials.filterMap trialOutcome = td :: tds) :
    ∃ cr, run_experiment name ranks trials = some cr ∧
      cr.algorithm = name ∧ cr.ranks = ranks ∧
      cr.matchCount = td.matchCount ∧
      cr.time * (((td :: tds).length : ℚ)) = ((td :: tds).map TrialData.time).sum ∧
      cr.min_time ∈ (td :: tds).map TrialData.time ∧
      (∀ x ∈ (td :: tds).map TrialData.time, cr.min_time ≤ x) ∧
      cr.max_time ∈ (td :: tds).map TrialData.time ∧
      (∀ x ∈ (td :: tds).map TrialData.time, x ≤ cr.max_time) := by
  have hc : collectTrials trials = some (td :: tds) := by
    rw [collectTrials_char, if_neg, hp]
    intro hany
    rcases List.any_eq_true.mp hany with ⟨t, ht, hft⟩
    rw [hnf t ht] at hft
    cases hft
  exact run_experiment_props name ranks trials td tds hc

theorem C10_witness :
    (∀ t ∈ [TrialRun.completed 0 noFieldOut, goodTrial, goodTrial],
      hardFail t = false) ∧
    ([TrialRun.completed 0 noFieldOut, goodTrial, goodTrial].filterMap
      trialOutcome = tdGood :: [tdGood]) ∧
    (∃ cr, run_experiment nameBF 4
        [TrialRun.completed 0 noFieldOut, goodTrial, goodTrial] = some cr ∧
      cr.algorithm = nameBF ∧ cr.ranks = 4 ∧
      cr.matchCount = tdGood.matchCount ∧
      cr.time * (((tdGood :: [tdGood]).length : ℚ)) =
        ((tdGood :: [tdGood]).map TrialData.time).sum ∧
      cr.min_time ∈ (tdGood :: [tdGood]).map TrialData.time ∧
      (∀ x ∈ (tdGood :: [tdGood]).map TrialData.time, cr.min_time ≤ x) ∧
      cr.max_time ∈ (tdGood :: [tdGood]).map TrialData.time ∧
      (∀ x ∈ (tdGood :: [tdGood]).map TrialData.time, x ≤ cr.max_time)) := by
  have h1 : ∀ t ∈ [TrialRun.completed 0 noFieldOut, goodTrial, goodTrial],
      hardFail t = false := by
    intro t ht
    simp only [List.mem_cons, List.not_mem_nil, or_false] at ht
    rcases ht with h | h | h <;> subst h <;> rfl
  have h2 : [TrialRun.completed 0 noFieldOut, goodTrial, goodTrial].filterMap
      trialOutcome = tdGood :: [tdGood] := by
    simp [goodTrial, trialOutcome, parseOutput, searchTime, searchMatches,
      goodOut, noFieldOut, matchTimeAt, matchMatchesAt, dropLit, timeLit,
      matchesLit, isSpaceCh, isDigitCh, isTimeCh, floatOk, ratOfFloatStr,
      natOfDigits, tdGood]
    norm_num
  exact ⟨h1, h2, C10_partial_trial_tolerance nameBF 4 _ tdGood [tdGood] h1 h2⟩

/-- C4: every successful cell reports a mean time inside the closed
interval between its min and max times, and min is at most max. -/
theorem C4_mean_within_bounds (name : String) (ranks : Nat)
    (trials : List TrialRun) (cr : CellResult)
    (h : run_experiment name ranks trials = some cr) :
    cr.min_time ≤ cr.time ∧ cr.time ≤ cr.max_time ∧
      cr.min_time ≤ cr.max_time := by
  unfold run_experiment at h
  cases hc : collectTrials trials with
  | none => rw [hc] at h; cases h
  | some l =>
    cases l with
    | nil => rw [hc] at h; cases h
    | cons r rs =>
      rw [hc] at h
      injection h with h
      subst h
      have hne : (r :: rs).map TrialData.time ≠ [] := by simp
      have hminle : ∀ x ∈ (r :: rs).map TrialData.time,
          rs.foldl (fun a b => min a b.time) r.time ≤ x := by
        intro x hx
        rcases List.mem_map.mp hx with ⟨b, hb, hbx⟩
        rcases List.mem_cons.mp hb with hb | hb
        · rw [← hbx, hb]
          exact foldl_min_le_init rs r.time
        · rw [← hbx]
          exact foldl_min_le_mem rs r.time b hb
      have hmaxge : ∀ x ∈ (r :: rs).map TrialData.time,
          x ≤ rs.foldl (fun a b => max a b.time) r.time := by
        intro x hx
        rcases List.mem_map.mp hx with ⟨b, hb, hbx⟩
        rcases List.mem_cons.mp hb with hb | hb
        · rw [← hbx, hb]
          exact foldl_max_init_le rs r.time
        · rw [← hbx]
          exact foldl_max_mem_le rs r.time b hb
      refine ⟨?_, ?_, ?_⟩
      · have := le_sum_div_length ((r :: rs).map TrialData.time) hne _ hminle
        simpa using this
      · have := sum_div_length_le ((r :: rs).map TrialData.time) hne _ hmaxge
        simpa using this
      · exact le_trans (foldl_min_le_init rs r.time) (foldl_max_init_le rs r.time)

theorem C4_witness :
    run_experiment nameBF 1 demoTrials = some cellBF1 ∧
      (cellBF1.min_time ≤ cellBF1.time ∧ cellBF1.time ≤ cellBF1.max_time ∧
        cellBF1.min_time ≤ cellBF1.max_time) :=
  ⟨demo_run_eq, C4_mean_within_bounds nameBF 1 demoTrials cellBF1 demo_run_eq⟩

/-- C3: whenever an algorithm group has a baseline row at 1 rank, every row
of the group yields a derived metric whose speedup is the baseline mean
time divided by the row's mean time and whose efficiency is that speedup
divided by the row's rank count, as a percentage. -/
theorem C3_derived_formulas (cells : List CellResult) (algo : String)
    (base c : CellResult)
    (hbase : (cells.filter (fun x => x.algorithm == algo)).find?
        (fun x => x.ranks == 1) = some base)
    (hc : c ∈ cells) (halg : c.algorithm = algo) :
    ({ algorithm := algo, ranks := c.ranks,
       speedup := base.time / c.time,
       efficiency := base.time / c.time / (c.ranks : ℚ) * 100 } :
      DerivedMetric) ∈ derivedMetrics cells := by
  have hmem_group : c ∈ cells.filter (fun x => x.algorithm == algo) :=
    List.mem_filter.mpr ⟨hc, by simp [halg]⟩
  have halgo_mem : algo ∈ uniqueAlgos cells := by
    have := mem_uniqueAlgos cells c hc
    rwa [halg] at this
  apply List.mem_flatMap.mpr
  refine ⟨algo, halgo_mem, ?_⟩
  simp only [derivedForAlgo]
  rw [hbase]
  apply List.mem_map.mpr
  exact ⟨c, hmem_group, by rw [halg]⟩

theorem C3_witness :
    ((demoCells.filter (fun x => x.algorithm == nameBF)).find?
        (fun x => x.ranks == 1) = some cellBF1) ∧
    cellBF2 ∈ demoCells ∧
    ({ algorithm := nameBF, ranks := cellBF2.ranks,
       speedup := cellBF1.time / cellBF2.time,
       efficiency := cellBF1.time / cellBF2.time / (cellBF2.ranks : ℚ) * 100 } :
      DerivedMetric) ∈ derivedMetrics demoCells := by
  have h1 : (demoCells.filter (fun x => x.algorithm == nameBF)).find?
      (fun x => x.ranks == 1) = some cellBF1 := rfl
  have h2 : cellBF2 ∈ demoCells := by
    simp [demoCells]
  exact ⟨h1, h2, C3_derived_formulas demoCells nameBF cellBF1 cellBF2 h1 h2 rfl⟩

/-- C5: the baseline row itself receives speedup 1 and efficiency 100
percent. -/
theorem C5_baseline_identity (cells : List CellResult) (algo : String)
    (base : CellResult)
    (hbase : (cells.filter (fun x => x.algorithm == algo)).find?
        (fun x => x.ranks == 1) = some base)
    (hz : base.time ≠ 0) :
    ({ algorithm := algo, ranks := 1, speedup := 1, efficiency := 100 } :
      DerivedMetric) ∈ derivedMetrics cells := by
  have hmem_group : base ∈ cells.filter (fun x => x.algorithm == algo) :=
    List.mem_of_find?_eq_some hbase
  have hr1 : base.ranks = 1 := by
    simpa using List.find?_some hbase
  have hfil := List.mem_filter.mp hmem_group
  have halg : base.algorithm = algo := by
    simpa using hfil.2
  have halgo_mem : algo ∈ uniqueAlgos cells := by
    have := mem_uniqueAlgos cells base hfil.1
    rwa [halg] at this
  apply List.mem_flatMap.mpr
  refine ⟨algo, halgo_mem, ?_⟩
  simp only [derivedForAlgo]
  rw [hbase]
  apply List.mem_map.mpr
  refine ⟨base, hmem_group, ?_⟩
  have hdiv : base.time / base.time = 1 := div_self hz
  simp only [DerivedMetric.mk.injEq, halg, hr1, hdiv]
  norm_num

theorem C5_witness :
    ((demoCells.filter (fun x => x.algorithm == nameBF)).find?
        (fun x => x.ranks == 1) = some cellBF1) ∧
    cellBF1.time ≠ 0 ∧
    ({ algorithm := nameBF, ranks := 1, speedup := 1, efficiency := 100 } :
      DerivedMetric) ∈ derivedMetrics demoCells := by
  have h1 : (demoCells.filter (fun x => x.algorithm == nameBF)).find?
      (fun x => x.ranks == 1) = some cellBF1 := rfl
  have h2 : cellBF1.time ≠ 0 := by
    norm_num [cellBF1]
  exact ⟨h1, h2, C5_baseline_identity demoCells nameBF cellBF1 h1 h2⟩

/-- C6: an algorithm with no cell at 1 rank contributes no derived metric
at all. -/
theorem C6_missing_baseline (cells : List CellResult) (algo : String)
    (h : ∀ c ∈ cells, c.algorithm = algo → c.ranks ≠ 1) :
    ∀ m ∈ derivedMetrics cells, m.algorithm ≠ algo := by
  intro m hm
  rcases List.mem_flatMap.mp hm with ⟨a, _, hma⟩
  simp only [derivedForAlgo] at hma
  split at hma
  · cases hma
  · rename_i base hfind
    rcases List.mem_map.mp hma with ⟨c, hcg, hcm⟩
    have hcf := List.mem_filter.mp hcg
    have hca : c.algorithm = a := by
      simpa using hcf.2
    have hbf := List.mem_filter.mp (List.mem_of_find?_eq_some hfind)
    have hba : base.algorithm = a := by
      simpa using hbf.2
    have hbr : base.ranks = 1 := by
      simpa using List.find?_some hfind
    intro hmalg
    have hm_alg : m.algorithm = c.algorithm := by
      rw [← hcm]
    have haeq : a = algo := by
      rw [← hca, ← hm_alg, hmalg]
    rw [haeq] at hba
    exact h base hbf.1 hba hbr

theorem C6_witness :
    (∀ c ∈ [cellBF2], c.algorithm = nameBF → c.ranks ≠ 1) ∧
    ∀ m ∈ derivedMetrics [cellBF2], m.algorithm ≠ nameBF := by
  have h : ∀ c ∈ [cellBF2], c.algorithm = nameBF → c.ranks ≠ 1 := by
    intro c hc
    rcases List.mem_singleton.mp hc with rfl
    intro _
    norm_num [cellBF2]
  exact ⟨h, C6_missing_baseline [cellBF2] nameBF h⟩

theorem no_true_entry (pre post : List (String × Bool)) (name : String)
    (hnodup : ((pre ++ (name, false) :: post).map Prod.fst).Nodup) :
    (name, true) ∉ pre ++ (name, false) :: post := by
  intro hmem
  have h2 : (name, false) ∈ pre ++ (name, false) :: post :=
    List.mem_append_right _ (List.mem_cons_self _ _)
  cases nodup_key_unique _ hnodup name true false hmem h2

/-- C7: an algorithm whose executable is absent contributes no cell at any
rank count, its runner is never consulted (the sweep is invariant under
changing the runner's behaviour on that algorithm), and the sweep of the
remaining algorithms is unchanged. -/
theorem C7_missing_executable_skip (pre post : List (String × Bool))
    (name : String) (rcs : List Nat)
    (runner runner2 : String → Nat → List TrialRun)
    (hnodup : ((pre ++ (name, false) :: post).map Prod.fst).Nodup)
    (hagree : ∀ n r, n ≠ name → runner2 n r = runner n r) :
    sweep (pre ++ (name, false) :: post) rcs runner =
      sweep (pre ++ post) rcs runner ∧
    (∀ cr ∈ sweep (pre ++ (name, false) :: post) rcs runner,
      cr.algorithm ≠ name) ∧
    sweep (pre ++ (name, false) :: post) rcs runner2 =
      sweep (pre ++ (name, false) :: post) rcs runner := by
  refine ⟨?_, ?_, ?_⟩
  · rw [sweep_append, sweep_append]
    congr 1
  · intro cr hcr hcralg
    rcases mem_sweep _ _ _ _ hcr with ⟨p, hp, hp2, hp3⟩
    have hpeq : p = (name, true) := by
      rcases p with ⟨pn, pb⟩
      simp only at hp2 hp3
      rw [hp3] at hcralg
      rw [hcralg, hp2]
    rw [hpeq] at hp
    exact no_true_entry pre post name hnodup hp
  · apply sweep_congr
    intro p hp hp2 r
    apply hagree
    intro hpname
    apply no_true_entry pre post name hnodup
    have hpeq : p = (name, true) := by
      rcases p with ⟨pn, pb⟩
      simp only at hp2 hpname
      rw [hpname, hp2]
    rwa [hpeq] at hp

theorem C7_witness :
    ((([] : List (String × Bool)) ++ (nameBF, false) :: [(nameRK, true)]).map
      Prod.fst).Nodup ∧
    (∀ n r, n ≠ nameBF → runnerB n r = runnerA n r) ∧
    (sweep (([] : List (String × Bool)) ++ (nameBF, false) :: [(nameRK, true)])
        [1] runnerA =
      sweep (([] : List (String × Bool)) ++ [(nameRK, true)]) [1] runnerA ∧
    (∀ cr ∈ sweep (([] : List (String × Bool)) ++
        (nameBF, false) :: [(nameRK, true)]) [1] runnerA,
      cr.algorithm ≠ nameBF) ∧
    sweep (([] : List (String × Bool)) ++ (nameBF, false) :: [(nameRK, true)])
        [1] runnerB =
      sweep (([] : List (String × Bool)) ++ (nameBF, false) :: [(nameRK, true)])
        [1] runnerA) := by
  have h1 : ((([] : List (String × Bool)) ++
      (nameBF, false) :: [(nameRK, true)]).map Prod.fst).Nodup := by
    decide
  have h2 : ∀ n r, n ≠ nameBF → runnerB n r = runnerA n r := by
    intro n r hn
    simp [runnerB, hn]
  exact ⟨h1, h2,
    C7_missing_executable_skip [] [(nameRK, true)] nameBF [1] runnerA runnerB h1 h2⟩

/-- C8: a stdout in which either pattern is absent, or whose time numeral
is malformed, never produces a parsed field pair, and the trial built on it
yields no `TrialOutcome` whatever the exit code. -/
theorem C8_parse_failure_no_outcome (out : List Char)
    (h : searchMatches out = none ∨ searchTime out = none ∨
      ∃ s, searchTime out = some s ∧ floatOk s = false) :
    (∀ mt tm, parseOutput out ≠ ParseOutcome.fields mt tm) ∧
    ∀ rc, trialOutcome (TrialRun.completed rc out) = none := by
  have hp : ∀ mt tm, parseOutput out ≠ ParseOutcome.fields mt tm := by
    intro mt tm hfld
    simp only [parseOutput] at hfld
    cases ht : searchTime out with
    | none =>
      simp only [ht] at hfld
      cases hfld
    | some s =>
      simp only [ht] at hfld
      by_cases hfok : floatOk s = true
      · rw [if_pos hfok] at hfld
        cases hm : searchMatches out with
        | none =>
          simp only [hm] at hfld
          cases hfld
        | some d =>
          rcases h with h | h | ⟨s2, hs2, hfo⟩
          · rw [hm] at h
            cases h
          · rw [ht] at h
            cases h
          · rw [ht] at hs2
            injection hs2 with hs2
            rw [← hs2] at hfo
            rw [hfok] at hfo
            cases hfo
      · rw [if_neg hfok] at hfld
        cases hfld
  refine ⟨hp, ?_⟩
  intro rc
  simp only [trialOutcome]
  by_cases hrc : rc = 0
  · cases hpo : parseOutput out with
    | valueError => simp [hrc, hpo]
    | missing => simp [hrc, hpo]
    | fields mt tm => exact absurd hpo (hp mt tm)
  · simp [hrc]

theorem C8_witness :
    (searchMatches noFieldOut = none ∨ searchTime noFieldOut = none ∨
      ∃ s, searchTime noFieldOut = some s ∧ floatOk s = false) ∧
    (∀ mt tm, parseOutput noFieldOut ≠ ParseOutcome.fields mt tm) ∧
    ∀ rc, trialOutcome (TrialRun.completed rc noFieldOut) = none := by
  have h : searchMatches noFieldOut = none ∨ searchTime noFieldOut = none ∨
      ∃ s, searchTime noFieldOut = some s ∧ floatOk s = false :=
    Or.inl rfl
  exact ⟨h, C8_parse_failure_no_outcome noFieldOut h⟩

/-- C9: a sweep in which no cell succeeded ends in the `noResults` terminal
state — no table or metrics are produced and nothing is raised. -/
theorem C9_empty_sweep_soft (algos : List (String × Bool)) (rcs : List Nat)
    (runner : String → Nat → List TrialRun)
    (h : sweep algos rcs runner = []) :
    mainReport algos rcs runner = Report.noResults := by
  simp [mainReport, h]

theorem C9_witness :
    sweep [(nameBF, false)] [1] runnerA = [] ∧
    mainReport [(nameBF, false)] [1] runnerA = Report.noResults := by
  have h : sweep [(nameBF, false)] [1] runnerA = [] := rfl
  exact ⟨h, C9_empty_sweep_soft [(nameBF, false)] [1] runnerA h⟩
